import Mathlib

/-!
Verification of the Bloom filter in `src/bloom_filter.py`.

Embedding conventions:
* Python float arithmetic is modelled as exact real arithmetic (`ℝ`,
  `Real.log`); Python's `int()` conversion is truncation toward zero,
  modelled by `pyInt`.
* The third-party murmur3 hash (`mmh3.hash`) is modelled as an arbitrary
  function `hash : String → ℕ → ℤ` (item, seed ↦ signed integer digest);
  every theorem quantifies over it, so the results hold for the actual
  deterministic mmh3 instance.
* The `bitarray` bit vector is modelled as a `List Bool`; in-range
  assignment is `List.set`, reading is `List.getD · false`.
* Python `%` with a positive right operand agrees with `Int.emod`.
* `__init__` is modelled by `BloomFilter.new`, returning `Except` to
  record the exceptions the Python code can raise on the way
  (`math.log` domain error, division by zero in `get_hash_count`,
  negative length passed to `bitarray`).
-/

/-- Python's `int()` applied to a float: truncation toward zero,
with float arithmetic idealized as real arithmetic. -/
noncomputable def pyInt (x : ℝ) : ℤ := if 0 ≤ x then ⌊x⌋ else ⌈x⌉

/-- `BloomFilter.get_size` from `src/bloom_filter.py`:
`m = -(items_count * math.log(fp_prob)); m = m / (math.log(2) ** 2); return int(m)`. -/
noncomputable def get_size (items_count : ℤ) (fp_prob : ℝ) : ℤ :=
  pyInt (-((items_count : ℝ) * Real.log fp_prob) / (Real.log 2 ^ 2))

/-- `BloomFilter.get_hash_count` from `src/bloom_filter.py`:
`k = (size_of_bitarray/items_no) * math.log(2); return int(k)`. -/
noncomputable def get_hash_count (size_of_bitarray : ℤ) (items_no : ℤ) : ℤ :=
  pyInt (((size_of_bitarray : ℝ) / (items_no : ℝ)) * Real.log 2)

/-- The state of a `BloomFilter` object: fields `fp_prob`, `size`,
`hash_count`, `bit_array` as assigned in `__init__`. -/
structure BloomFilter where
  fp_prob : ℝ
  size : ℤ
  hash_count : ℤ
  bit_array : List Bool

/-- Exceptions the Python constructor can raise. -/
inductive PyError where
  | valueError : PyError
  | zeroDivisionError : PyError
deriving DecidableEq

/-- `BloomFilter.__init__` from `src/bloom_filter.py`, with the run-time
errors of the Python code made explicit:
`math.log(fp_prob)` raises `ValueError` when `fp_prob <= 0`;
`size/items_no` in `get_hash_count` raises `ZeroDivisionError` when
`items_count == 0`; `bitarray(size)` rejects a negative length with
`ValueError`.  There is no parameter validation in the source. -/
noncomputable def BloomFilter.new (items_count : ℤ) (fp_prob : ℝ) : Except PyError BloomFilter :=
  if fp_prob ≤ 0 then .error .valueError
  else
    let size := get_size items_count fp_prob
    if items_count = 0 then .error .zeroDivisionError
    else if size < 0 then .error .valueError
    else .ok { fp_prob := fp_prob
               size := size
               hash_count := get_hash_count size items_count
               bit_array := List.replicate size.toNat false }

/-- The bit index accessed for round `i`:
`digest = mmh3.hash(item, i) % self.size` (a natural number below `size`
whenever `size ≥ 1`, since Python `%` with a positive divisor is `Int.emod`). -/
def digest (hash : String → ℕ → ℤ) (size : ℤ) (item : String) (i : ℕ) : ℕ :=
  ((hash item i) % size).toNat

/-- `BloomFilter.add` from `src/bloom_filter.py`:
for `i in range(self.hash_count)`, set `self.bit_array[digest] = True`. -/
def BloomFilter.add (hash : String → ℕ → ℤ) (f : BloomFilter) (item : String) : BloomFilter :=
  { f with bit_array := (List.range f.hash_count.toNat).foldl (fun bs i => bs.set (digest hash f.size item i) true) f.bit_array }

/-- The loop of `BloomFilter.check`, over the remaining round indices:
if any probed bit is `False` it returns `False` at once, without looking
at the later rounds; if the rounds are exhausted it returns `True`. -/
def checkFrom (hash : String → ℕ → ℤ) (size : ℤ) (bs : List Bool) (item : String) :
    List ℕ → Bool
  | [] => true
  | i :: rest =>
      if bs.getD (digest hash size item i) false = false then false
      else checkFrom hash size bs item rest

/-- `BloomFilter.check` from `src/bloom_filter.py`: run the probe loop
over `range(self.hash_count)`. -/
def BloomFilter.check (hash : String → ℕ → ℤ) (f : BloomFilter) (item : String) : Bool :=
  checkFrom hash f.size f.bit_array item (List.range f.hash_count.toNat)

/-- The `check` method as a state transformer, translating the method
body statement by statement: each iteration only reads `bit_array`, so
the state is passed through unchanged on every path. -/
def checkFromM (hash : String → ℕ → ℤ) (item : String) :
    List ℕ → BloomFilter → Bool × BloomFilter
  | [], f => (true, f)
  | i :: rest, f =>
      if f.bit_array.getD (digest hash f.size item i) false = false then (false, f)
      else checkFromM hash item rest f

/-- The full `check` method call as a state transformer. -/
def BloomFilter.checkM (hash : String → ℕ → ℤ) (f : BloomFilter) (item : String) :
    Bool × BloomFilter :=
  checkFromM hash item (List.range f.hash_count.toNat) f

/-- A validly constructed filter: positive bit-vector size and a bit
array of exactly that length (as `bitarray(self.size)` produces). -/
def BloomFilter.Valid (f : BloomFilter) : Prop :=
  1 ≤ f.size ∧ f.bit_array.length = f.size.toNat

instance (f : BloomFilter) : Decidable f.Valid := by
  unfold BloomFilter.Valid; infer_instance

/-! ## Helper lemmas about the bit vector -/

theorem length_foldl_set (g : ℕ → ℕ) (l : List ℕ) (bs : List Bool) :
    (l.foldl (fun b i => b.set (g i) true) bs).length = bs.length := by
  induction l generalizing bs with
  | nil => rfl
  | cons a l ih => simp only [List.foldl_cons]; rw [ih, List.length_set]

theorem getElem?_foldl_set (g : ℕ → ℕ) (l : List ℕ) (bs : List Bool) (n : ℕ) :
    (l.foldl (fun b i => b.set (g i) true) bs)[n]? =
      if n < bs.length ∧ ∃ i ∈ l, g i = n then some true else bs[n]? := by
  induction l generalizing bs with
  | nil => simp
  | cons a l ih =>
    simp only [List.foldl_cons]
    rw [ih, List.length_set]
    by_cases hn : n < bs.length
    · by_cases hl : ∃ i ∈ l, g i = n
      · obtain ⟨i, hi, hgi⟩ := hl
        rw [if_pos ⟨hn, i, hi, hgi⟩, if_pos ⟨hn, i, List.mem_cons_of_mem a hi, hgi⟩]
      · by_cases ha : g a = n
        · rw [if_neg (fun h => hl h.2), if_pos ⟨hn, a, List.mem_cons_self a l, ha⟩]
          subst ha
          exact List.getElem?_set_eq_of_lt true hn
        · rw [if_neg (fun h => hl h.2), if_neg]
          · exact List.getElem?_set_ne ha
          · rintro ⟨-, i, hi, hgi⟩
            rcases List.mem_cons.mp hi with rfl | hi
            · exact ha hgi
            · exact hl ⟨i, hi, hgi⟩
    · rw [if_neg (fun h => hn h.1), if_neg (fun h => hn h.1)]
      have h1 : bs.length ≤ n := Nat.le_of_not_lt hn
      rw [List.getElem?_eq_none (by rw [List.length_set]; exact h1),
        List.getElem?_eq_none h1]

theorem getD_foldl_set_of_mem (g : ℕ → ℕ) (l : List ℕ) (bs : List Bool) (m : ℕ)
    (hm : m ∈ l) (hlen : g m < bs.length) :
    (l.foldl (fun b i => b.set (g i) true) bs).getD (g m) false = true := by
  rw [List.getD_eq_getElem?_getD, getElem?_foldl_set, if_pos ⟨hlen, m, hm, rfl⟩]
  rfl

theorem getD_foldl_set_mono (g : ℕ → ℕ) (l : List ℕ) (bs : List Bool) (n : ℕ)
    (h : bs.getD n false = true) :
    (l.foldl (fun b i => b.set (g i) true) bs).getD n false = true := by
  rw [List.getD_eq_getElem?_getD] at h ⊢
  rw [getElem?_foldl_set]
  split
  · rfl
  · exact h

theorem foldl_set_idem (g : ℕ → ℕ) (l : List ℕ) (bs : List Bool) :
    l.foldl (fun b i => b.set (g i) true) (l.foldl (fun b i => b.set (g i) true) bs) =
      l.foldl (fun b i => b.set (g i) true) bs := by
  apply List.ext_getElem?
  intro n
  rw [getElem?_foldl_set, length_foldl_set, getElem?_foldl_set]
  by_cases hc : n < bs.length ∧ ∃ i ∈ l, g i = n
  · rw [if_pos hc, if_pos hc]
  · rw [if_neg hc, if_neg hc]

theorem checkFrom_eq_true_iff (hash : String → ℕ → ℤ) (size : ℤ) (bs : List Bool)
    (item : String) (l : List ℕ) :
    checkFrom hash size bs item l = true ↔
      ∀ i ∈ l, bs.getD (digest hash size item i) false = true := by
  induction l with
  | nil => simp [checkFrom]
  | cons a l ih =>
    by_cases h : bs.getD (digest hash size item a) false = false
    · simp only [checkFrom, if_pos h]
      constructor
      · intro hfalse; exact absurd hfalse (by simp)
      · intro hall
        have ha := hall a (List.mem_cons_self a l)
        rw [ha] at h
        exact absurd h (by simp)
    · have ht : bs.getD (digest hash size item a) false = true := by
        cases hb : bs.getD (digest hash size item a) false
        · exact absurd hb h
        · rfl
      simp only [checkFrom, if_neg h, ih]
      constructor
      · intro hall i hi
        rcases List.mem_cons.mp hi with rfl | hi
        · exact ht
        · exact hall i hi
      · intro hall i hi
        exact hall i (List.mem_cons_of_mem a hi)

theorem checkFrom_eq_false_iff (hash : String → ℕ → ℤ) (size : ℤ) (bs : List Bool)
    (item : String) (l : List ℕ) :
    checkFrom hash size bs item l = false ↔
      ∃ i ∈ l, bs.getD (digest hash size item i) false = false := by
  rw [← Bool.not_eq_true, checkFrom_eq_true_iff]
  push_neg
  simp only [Bool.not_eq_true]

theorem checkFromM_spec (hash : String → ℕ → ℤ) (item : String) (l : List ℕ)
    (f : BloomFilter) :
    checkFromM hash item l f = (checkFrom hash f.size f.bit_array item l, f) := by
  induction l with
  | nil => rfl
  | cons a l ih =>
    simp only [checkFromM, checkFrom]
    split
    · rfl
    · exact ih

theorem digest_lt_toNat (hash : String → ℕ → ℤ) (size : ℤ) (item : String) (i : ℕ)
    (hsize : 1 ≤ size) : digest hash size item i < size.toNat := by
  have h1 : 0 ≤ hash item i % size := Int.emod_nonneg _ (by omega)
  have h2 : hash item i % size < size := Int.emod_lt_of_pos _ (by omega)
  unfold digest
  omega

theorem add_size_eq (hash : String → ℕ → ℤ) (f : BloomFilter) (item : String) :
    (BloomFilter.add hash f item).size = f.size := rfl

theorem add_hash_count_eq (hash : String → ℕ → ℤ) (f : BloomFilter) (item : String) :
    (BloomFilter.add hash f item).hash_count = f.hash_count := rfl

theorem add_bit_array_eq (hash : String → ℕ → ℤ) (f : BloomFilter) (item : String) :
    (BloomFilter.add hash f item).bit_array =
      (List.range f.hash_count.toNat).foldl
        (fun bs i => bs.set (digest hash f.size item i) true) f.bit_array := rfl

theorem add_valid (hash : String → ℕ → ℤ) (f : BloomFilter) (item : String)
    (hf : f.Valid) : (BloomFilter.add hash f item).Valid := by
  refine ⟨hf.1, ?_⟩
  rw [add_bit_array_eq, length_foldl_set]
  exact hf.2

theorem check_add_self (hash : String → ℕ → ℤ) (f : BloomFilter) (item : String)
    (hf : f.Valid) : BloomFilter.check hash (BloomFilter.add hash f item) item = true := by
  show checkFrom hash f.size (BloomFilter.add hash f item).bit_array item
    (List.range f.hash_count.toNat) = true
  rw [checkFrom_eq_true_iff, add_bit_array_eq]
  intro i hi
  apply getD_foldl_set_of_mem (fun i => digest hash f.size item i) _ _ i hi
  rw [hf.2]
  exact digest_lt_toNat hash f.size item i hf.1

theorem check_mono_add (hash : String → ℕ → ℤ) (f : BloomFilter) (item w : String)
    (h : BloomFilter.check hash f item = true) :
    BloomFilter.check hash (BloomFilter.add hash f w) item = true := by
  show checkFrom hash f.size (BloomFilter.add hash f w).bit_array item
    (List.range f.hash_count.toNat) = true
  rw [checkFrom_eq_true_iff, add_bit_array_eq]
  rw [BloomFilter.check, checkFrom_eq_true_iff] at h
  intro i hi
  exact getD_foldl_set_mono _ _ _ _ (h i hi)

theorem check_true_foldl (hash : String → ℕ → ℤ) (f : BloomFilter) (item : String)
    (ws : List String) (h : BloomFilter.check hash f item = true) :
    BloomFilter.check hash (ws.foldl (BloomFilter.add hash) f) item = true := by
  induction ws generalizing f with
  | nil => exact h
  | cons w ws ih => exact ih _ (check_mono_add hash f item w h)

/-! ## Helper lemmas about the sizing arithmetic -/

theorem pyInt_of_nonneg (x : ℝ) (h : 0 ≤ x) : pyInt x = ⌊x⌋ := if_pos h

theorem get_size_20_half : get_size 20 (1/2) = 28 := by
  have h2 : (0:ℝ) < Real.log 2 := Real.log_pos (by norm_num)
  have hlt : Real.log 2 < 0.6931471808 := Real.log_two_lt_d9
  have hgt : (0.6931471803:ℝ) < Real.log 2 := Real.log_two_gt_d9
  have hL : Real.log ((1:ℝ)/2) = -Real.log 2 := by rw [one_div, Real.log_inv]
  have e : -(((20:ℤ):ℝ) * Real.log (1/2)) / (Real.log 2 ^ 2) = 20 / Real.log 2 := by
    rw [hL]
    push_cast
    field_simp
    ring
  unfold get_size
  rw [e, pyInt_of_nonneg _ (by positivity)]
  have h28 : ((28:ℤ):ℝ) ≤ 20 / Real.log 2 := by
    rw [le_div_iff₀ h2]
    push_cast
    nlinarith
  have h29 : 20 / Real.log 2 < (28:ℤ) + 1 := by
    rw [div_lt_iff₀ h2]
    push_cast
    nlinarith
  exact Int.floor_eq_iff.mpr ⟨h28, h29⟩

theorem get_hash_count_28_20 : get_hash_count 28 20 = 0 := by
  have h2 : (0:ℝ) < Real.log 2 := Real.log_pos (by norm_num)
  have hlt : Real.log 2 < 0.6931471808 := Real.log_two_lt_d9
  have e : (((28:ℤ):ℝ) / ((20:ℤ):ℝ)) * Real.log 2 = 1.4 * Real.log 2 := by
    push_cast
    ring_nf
  unfold get_hash_count
  rw [e, pyInt_of_nonneg _ (by nlinarith)]
  have h0 : ((0:ℤ):ℝ) ≤ 1.4 * Real.log 2 := by
    push_cast
    nlinarith
  have h1 : 1.4 * Real.log 2 < (0:ℤ) + 1 := by
    push_cast
    nlinarith
  exact Int.floor_eq_iff.mpr ⟨h0, h1⟩

theorem get_size_1_ninety_percent : get_size 1 (9/10) = 0 := by
  have h2 : (0:ℝ) < Real.log 2 := Real.log_pos (by norm_num)
  have hgt : (0.6931471803:ℝ) < Real.log 2 := Real.log_two_gt_d9
  have hp : (0:ℝ) < 9/10 := by norm_num
  have hlog : Real.log ((9:ℝ)/10) ≤ 0 := Real.log_nonpos (by norm_num) (by norm_num)
  have hbound : -Real.log ((9:ℝ)/10) ≤ 1/9 := by
    have hinv : -Real.log ((9:ℝ)/10) = Real.log ((9/10:ℝ)⁻¹) := (Real.log_inv _).symm
    have : ((9/10:ℝ)⁻¹) = 10/9 := by norm_num
    rw [hinv, this]
    have := Real.log_le_sub_one_of_pos (x := (10/9:ℝ)) (by norm_num)
    linarith
  have e : -(((1:ℤ):ℝ) * Real.log (9/10)) / (Real.log 2 ^ 2) =
      -Real.log ((9:ℝ)/10) / (Real.log 2 ^ 2) := by
    push_cast
    ring
  unfold get_size
  rw [e, pyInt_of_nonneg _ (div_nonneg (by linarith) (by positivity))]
  have h0 : ((0:ℤ):ℝ) ≤ -Real.log ((9:ℝ)/10) / (Real.log 2 ^ 2) := by
    push_cast
    exact div_nonneg (by linarith) (by positivity)
  have h1 : -Real.log ((9:ℝ)/10) / (Real.log 2 ^ 2) < (0:ℤ) + 1 := by
    rw [div_lt_iff₀ (by positivity)]
    push_cast
    nlinarith
  exact Int.floor_eq_iff.mpr ⟨h0, h1⟩

theorem get_size_10_one : get_size 10 1 = 0 := by
  unfold get_size
  rw [Real.log_one]
  norm_num [pyInt]

theorem get_hash_count_0_10 : get_hash_count 0 10 = 0 := by
  unfold get_hash_count
  norm_num [pyInt]

theorem new_10_one :
    BloomFilter.new 10 1 = Except.ok ⟨1, 0, 0, []⟩ := by
  unfold BloomFilter.new
  rw [if_neg (by norm_num : ¬ (1:ℝ) ≤ 0)]
  simp only [get_size_10_one, get_hash_count_0_10]
  norm_num

theorem new_20_half :
    BloomFilter.new 20 (1/2) = Except.ok ⟨1/2, 28, 0, List.replicate 28 false⟩ := by
  unfold BloomFilter.new
  rw [if_neg (by norm_num : ¬ (1:ℝ)/2 ≤ 0)]
  simp only [get_size_20_half, get_hash_count_28_20]
  norm_num
  rfl

theorem new_0_p05 : BloomFilter.new 0 (1/20) = Except.error PyError.zeroDivisionError := by
  unfold BloomFilter.new
  rw [if_neg (by norm_num : ¬ (1:ℝ)/20 ≤ 0)]
  simp

theorem new_10_zero : BloomFilter.new 10 0 = Except.error PyError.valueError := by
  unfold BloomFilter.new
  rw [if_pos (le_refl (0:ℝ))]

theorem new_10_three_halves :
    BloomFilter.new 10 (3/2) = Except.error PyError.valueError := by
  have h2 : (0:ℝ) < Real.log 2 := Real.log_pos (by norm_num)
  have hgt : (0.6931471803:ℝ) < Real.log 2 := Real.log_two_gt_d9
  have hlt : Real.log 2 < 0.6931471808 := Real.log_two_lt_d9
  have hL : (1:ℝ)/3 ≤ Real.log (3/2) := by
    have h23 : Real.log ((2:ℝ)/3) ≤ 2/3 - 1 := Real.log_le_sub_one_of_pos (by norm_num)
    have hinv : Real.log ((3:ℝ)/2) = -Real.log ((2:ℝ)/3) := by
      rw [← Real.log_inv]
      norm_num
    linarith
  have hsize : get_size 10 (3/2) < 0 := by
    unfold get_size
    have hval : -(((10:ℤ):ℝ) * Real.log (3/2)) / (Real.log 2 ^ 2) ≤ -1 := by
      rw [div_le_iff₀ (by positivity)]
      push_cast
      nlinarith
    have hneg : ¬ (0:ℝ) ≤ -(((10:ℤ):ℝ) * Real.log (3/2)) / (Real.log 2 ^ 2) := by linarith
    unfold pyInt
    rw [if_neg hneg]
    have hceil : (⌈-(((10:ℤ):ℝ) * Real.log (3/2)) / (Real.log 2 ^ 2)⌉ : ℤ) ≤ -1 :=
      Int.ceil_le.mpr (by exact_mod_cast hval)
    omega
  unfold BloomFilter.new
  rw [if_neg (by norm_num : ¬ (3:ℝ)/2 ≤ 0)]
  simp only [if_neg (by norm_num : ¬ (10:ℤ) = 0), if_pos hsize]

/-! ## Claim theorems -/

/-- Claim C1: no false negatives.  For any validly constructed filter,
any insertion sequence `ws` (any order, interleaved with arbitrary other
insertions) containing `x`, `check` on `x` returns `true` after all the
insertions; `check` is a pure function, so every repetition returns the
same `true`. -/
theorem c1_no_false_negatives (hash : String → ℕ → ℤ) (f : BloomFilter) (hf : f.Valid)
    (ws : List String) (x : String) (hx : x ∈ ws) :
    BloomFilter.check hash (ws.foldl (BloomFilter.add hash) f) x = true := by
  revert hx
  induction ws generalizing f with
  | nil => intro hx; cases hx
  | cons w ws ih =>
    intro hx
    rw [List.foldl_cons]
    rcases List.mem_cons.mp hx with rfl | hx
    · exact check_true_foldl hash _ x ws (check_add_self hash f x hf)
    · exact ih (BloomFilter.add hash f w) (add_valid hash f w hf) hx

theorem c1_no_false_negatives_witness :
    BloomFilter.Valid ⟨1/2, 2, 1, [false, false]⟩ ∧
    ("hello" ∈ ["world", "hello"]) ∧
    BloomFilter.check (fun _ _ => 3)
      (List.foldl (BloomFilter.add (fun _ _ => 3)) ⟨1/2, 2, 1, [false, false]⟩
        ["world", "hello"]) "hello" = true :=
  ⟨by decide, by simp,
    c1_no_false_negatives (fun _ _ => 3) ⟨1/2, 2, 1, [false, false]⟩ (by decide)
      ["world", "hello"] "hello" (by simp)⟩

/-- Claim C4: `check` returns `false` iff some round `i < hash_count`
probes a bit that is `false` (the definition `checkFrom` returns at the
first such round), and returns `true` iff all `hash_count` probed
positions hold `true`. -/
theorem c4_check_characterization (hash : String → ℕ → ℤ) (f : BloomFilter)
    (hf : f.Valid) (item : String) :
    (BloomFilter.check hash f item = false ↔
      ∃ i, i < f.hash_count.toNat ∧
        f.bit_array.getD (digest hash f.size item i) false = false) ∧
    (BloomFilter.check hash f item = true ↔
      ∀ i, i < f.hash_count.toNat →
        f.bit_array.getD (digest hash f.size item i) false = true) := by
  constructor
  · unfold BloomFilter.check
    rw [checkFrom_eq_false_iff]
    constructor
    · rintro ⟨i, hi, h⟩; exact ⟨i, List.mem_range.mp hi, h⟩
    · rintro ⟨i, hi, h⟩; exact ⟨i, List.mem_range.mpr hi, h⟩
  · unfold BloomFilter.check
    rw [checkFrom_eq_true_iff]
    constructor
    · intro h i hi; exact h i (List.mem_range.mpr hi)
    · intro h i hi; exact h i (List.mem_range.mp hi)

theorem c4_check_characterization_witness :
    (BloomFilter.check (fun _ _ => 0) ⟨1/2, 1, 1, [false]⟩ "a" = false ↔
      ∃ i, i < ((1:ℤ)).toNat ∧
        ([false] : List Bool).getD (digest (fun _ _ => 0) 1 "a" i) false = false) :=
  (c4_check_characterization (fun _ _ => 0) ⟨1/2, 1, 1, [false]⟩ (by decide) "a").1

/-- Claim C5: insertion is idempotent — adding the same item twice
yields exactly the same filter state (hence the same answer to every
subsequent query) as adding it once. -/
theorem c5_add_idempotent (hash : String → ℕ → ℤ) (f : BloomFilter) (item : String) :
    BloomFilter.add hash (BloomFilter.add hash f item) item = BloomFilter.add hash f item := by
  unfold BloomFilter.add
  congr 1
  exact foldl_set_idem _ _ _

/-- Claim C6: `add` never resets a `true` bit and changes no field but
the bit contents: `size`, `hash_count`, `fp_prob` and the bit-vector
length are all preserved, and the `check` method leaves the whole state
unchanged. -/
theorem c6_invariants_preserved (hash : String → ℕ → ℤ) (f : BloomFilter) (item : String) :
    (BloomFilter.add hash f item).size = f.size ∧
    (BloomFilter.add hash f item).hash_count = f.hash_count ∧
    (BloomFilter.add hash f item).fp_prob = f.fp_prob ∧
    (BloomFilter.add hash f item).bit_array.length = f.bit_array.length ∧
    (∀ j, f.bit_array.getD j false = true →
      (BloomFilter.add hash f item).bit_array.getD j false = true) ∧
    (BloomFilter.checkM hash f item).2 = f := by
  refine ⟨rfl, rfl, rfl, ?_, ?_, ?_⟩
  · rw [add_bit_array_eq, length_foldl_set]
  · intro j hj
    rw [add_bit_array_eq]
    exact getD_foldl_set_mono _ _ _ _ hj
  · unfold BloomFilter.checkM
    rw [checkFromM_spec]

theorem c6_invariants_preserved_witness :
    (BloomFilter.add (fun _ _ => 0) ⟨1/2, 1, 1, [true]⟩ "a").bit_array.getD 0 false = true :=
  (c6_invariants_preserved (fun _ _ => 0) ⟨1/2, 1, 1, [true]⟩ "a").2.2.2.2.1 0 (by decide)

/-- Claim C7: `check` is pure and read-only: the method, rendered as a
state transformer, returns the state it was given — every field,
`bit_array` included, is unchanged — and its boolean result is the pure
`check` function. -/
theorem c7_check_pure (hash : String → ℕ → ℤ) (f : BloomFilter) (item : String) :
    (BloomFilter.checkM hash f item).2 = f ∧
    (BloomFilter.checkM hash f item).1 = BloomFilter.check hash f item := by
  unfold BloomFilter.checkM BloomFilter.check
  rw [checkFromM_spec]
  exact ⟨rfl, rfl⟩

/-- Claim C2 (refuted, code bug): the constructor has no
`InvalidParameter` validation.  `new(10, 1.0)` succeeds and returns a
degenerate filter with `size = 0` and `hash_count = 0`; `new(0, 0.05)`
dies with a `ZeroDivisionError` inside `get_hash_count`; `new(10, 0.0)`
dies with `ValueError` inside `math.log`; `new(10, 1.5)` computes a
negative size and dies with `ValueError` in `bitarray`. -/
theorem c2_no_invalid_parameter :
    BloomFilter.new 10 1 = Except.ok ⟨1, 0, 0, []⟩ ∧
    BloomFilter.new 0 (1/20) = Except.error PyError.zeroDivisionError ∧
    BloomFilter.new 10 0 = Except.error PyError.valueError ∧
    BloomFilter.new 10 (3/2) = Except.error PyError.valueError :=
  ⟨new_10_one, new_0_p05, new_10_zero, new_10_three_halves⟩

/-- Claim C3 (refuted, code bug): the code truncates the sizing
formulas but never clamps to a minimum of 1.  At the valid parameters
`(20, 0.5)` it computes `bit_count = 28` and `hash_round_count = 0`,
and at `(1, 0.9)` it computes `bit_count = 0`. -/
theorem c3_sizing_not_clamped :
    get_size 20 (1/2) = 28 ∧ get_hash_count 28 20 = 0 ∧ get_size 1 (9/10) = 0 :=
  ⟨get_size_20_half, get_hash_count_28_20, get_size_1_ninety_percent⟩

/-- Claim C8: the computed bit count is monotone — nondecreasing in the
capacity for a fixed rate in (0,1), and nonincreasing in the rate for a
fixed capacity. -/
theorem c8_get_size_monotone (c1 c2 c : ℤ) (p p1 p2 : ℝ)
    (hc1 : 1 ≤ c1) (hcc : c1 ≤ c2) (hc : 1 ≤ c)
    (hp0 : 0 < p) (hp1 : p < 1) (hq0 : 0 < p1) (hq : p1 ≤ p2) (hq1 : p2 < 1) :
    get_size c1 p ≤ get_size c2 p ∧ get_size c p2 ≤ get_size c p1 := by
  have hden : (0:ℝ) < Real.log 2 ^ 2 := by
    have := Real.log_pos (by norm_num : (1:ℝ) < 2)
    positivity
  constructor
  · have hlp : Real.log p ≤ 0 := Real.log_nonpos hp0.le hp1.le
    have hc1R : (1:ℝ) ≤ (c1:ℝ) := by exact_mod_cast hc1
    have hccR : ((c1:ℤ):ℝ) ≤ ((c2:ℤ):ℝ) := by exact_mod_cast hcc
    have hnum : -((c1:ℝ) * Real.log p) ≤ -((c2:ℝ) * Real.log p) := by nlinarith
    have h0 : (0:ℝ) ≤ -((c1:ℝ) * Real.log p) := by nlinarith
    have h0' : (0:ℝ) ≤ -((c2:ℝ) * Real.log p) := by nlinarith
    unfold get_size
    rw [pyInt_of_nonneg _ (div_nonneg h0 hden.le), pyInt_of_nonneg _ (div_nonneg h0' hden.le)]
    rw [div_eq_mul_inv, div_eq_mul_inv]
    exact Int.floor_le_floor (mul_le_mul_of_nonneg_right hnum (inv_nonneg.mpr hden.le))
  · have hlp12 : Real.log p1 ≤ Real.log p2 := Real.log_le_log hq0 hq
    have hlp2 : Real.log p2 ≤ 0 := Real.log_nonpos (lt_of_lt_of_le hq0 hq).le hq1.le
    have hcR : (1:ℝ) ≤ (c:ℝ) := by exact_mod_cast hc
    have hnum : -((c:ℝ) * Real.log p2) ≤ -((c:ℝ) * Real.log p1) := by nlinarith
    have h0 : (0:ℝ) ≤ -((c:ℝ) * Real.log p2) := by nlinarith
    have h0' : (0:ℝ) ≤ -((c:ℝ) * Real.log p1) := by nlinarith
    unfold get_size
    rw [pyInt_of_nonneg _ (div_nonneg h0 hden.le), pyInt_of_nonneg _ (div_nonneg h0' hden.le)]
    rw [div_eq_mul_inv, div_eq_mul_inv]
    exact Int.floor_le_floor (mul_le_mul_of_nonneg_right hnum (inv_nonneg.mpr hden.le))

theorem c8_get_size_monotone_witness :
    get_size 1 (1/2) ≤ get_size 2 (1/2) ∧ get_size 1 (1/2) ≤ get_size 1 (1/4) :=
  c8_get_size_monotone 1 2 1 (1/2) (1/4) (1/2) (by norm_num) (by norm_num) (by norm_num)
    (by norm_num) (by norm_num) (by norm_num) (by norm_num) (by norm_num)

/-- Claim C9: on a validly constructed filter every bit-vector index
accessed by `add` or `check` — `hash(item, i) mod size` — lies in
`[0, size)` and within the bit array, for every string item (the empty
string included) and every round, even when the signed hash value is
negative; hence neither operation can fault. -/
theorem c9_index_in_bounds (hash : String → ℕ → ℤ) (f : BloomFilter) (hf : f.Valid)
    (item : String) (i : ℕ) :
    0 ≤ hash item i % f.size ∧ hash item i % f.size < f.size ∧
      digest hash f.size item i < f.bit_array.length := by
  have h1 : 0 ≤ hash item i % f.size := Int.emod_nonneg _ (by have := hf.1; omega)
  have h2 : hash item i % f.size < f.size := Int.emod_lt_of_pos _ (by have := hf.1; omega)
  refine ⟨h1, h2, ?_⟩
  rw [hf.2]
  exact digest_lt_toNat hash f.size item i hf.1

theorem c9_index_in_bounds_witness :
    BloomFilter.Valid ⟨1/2, 2, 1, [false, false]⟩ ∧
    digest (fun _ _ => -5) 2 "" 0 < 2 :=
  ⟨by decide,
    (c9_index_in_bounds (fun _ _ => -5) ⟨1/2, 2, 1, [false, false]⟩ (by decide) "" 0).2.2⟩

/-- Claim C10: the repository's own test parameters `(20, 0.5)` give a
filter with `hash_count = 0`, and any filter with `hash_count = 0` has a
no-op `add` and a `check` that answers `true` for every string, inserted
or not. -/
theorem c10_zero_hash_rounds :
    (∃ f : BloomFilter, BloomFilter.new 20 (1/2) = Except.ok f ∧ f.hash_count = 0) ∧
    (∀ (hash : String → ℕ → ℤ) (f : BloomFilter) (item : String), f.hash_count = 0 →
      BloomFilter.add hash f item = f ∧ BloomFilter.check hash f item = true) := by
  constructor
  · exact ⟨_, new_20_half, rfl⟩
  · intro hash f item h
    have h0 : f.hash_count.toNat = 0 := by omega
    constructor
    · simp [BloomFilter.add, h0]
    · simp [BloomFilter.check, h0, checkFrom]

theorem c10_zero_hash_rounds_witness :
    BloomFilter.check (fun _ _ => 0) ⟨1/2, 0, 0, []⟩ "never-inserted" = true :=
  (c10_zero_hash_rounds.2 (fun _ _ => 0) ⟨1/2, 0, 0, []⟩ "never-inserted" rfl).2
